import Mathlib

/-!
# Versioned resource identity scheme (`pkg/scheme/group_version.go`)

A shallow embedding of the identity tuples, their parsers, their canonical
renderings and the two-pass resolver, followed by the properties proved
about them.

Conventions of the embedding
* A Go `string` is an arbitrary byte sequence: `GoString = List UInt8`.
  `lit` gives the bytes of a source literal (Go source is UTF-8).
* A Go function that can raise a run-time panic (slice bounds, index out of
  range) returns an `Option`; `none` is the panic.
* A Go `error` result is an `Option GoString` holding the message; `none` is
  the `nil` error.  A pointer result is an `Option` too; `none` is `nil`.
* `strings.Index`, `strings.Count` and `strings.SplitN` are only ever called
  with a one-byte separator literal, so the separator is passed as that byte
  (the standard library itself dispatches on `len(substr) == 1`).
-/

namespace scheme

/-- A Go string: an immutable sequence of bytes. -/
abbrev GoString := List UInt8

/-- Bytes of a Go string literal (UTF-8 encoding of the source text). -/
def lit (s : String) : GoString := s.toList.flatMap String.utf8EncodeChar

/-- The single byte of the literal ".". -/
abbrev dot : UInt8 := 0x2E

/-- The single byte of the literal "/". -/
abbrev slash : UInt8 := 0x2F

/-! ## Standard-library primitives used by the source -/

/-- Scan of `strings.Index` for a one-byte separator, `i` being the position
of the head of the remaining input. -/
def indexFrom (c : UInt8) : GoString → Nat → Int
  | [], _ => -1
  | b :: bs, i => if b = c then (i : Int) else indexFrom c bs (i + 1)

/-- Go `strings.Index(s, sep)` for a one-byte `sep`: position of the first
occurrence, or `-1`. -/
def Index (s : GoString) (c : UInt8) : Int := indexFrom c s 0

/-- Go `strings.Count(s, sep)` for a one-byte `sep`: number of bytes equal to
the separator. -/
def Count : GoString → UInt8 → Nat
  | [], _ => 0
  | b :: bs, c => if b = c then Count bs c + 1 else Count bs c

/-- Loop of `genSplit`: cut off at most `k` pieces at successive separators,
the unsplit remainder being the last piece. -/
def splitLoop (c : UInt8) : Nat → GoString → List GoString
  | 0, s => [s]
  | k + 1, s =>
    let m := Index s c
    if m < 0 then [s]
    else s.take m.toNat :: splitLoop c k (s.drop (m.toNat + 1))

/-- Go `strings.SplitN(s, sep, n)` for a one-byte `sep`. -/
def SplitN (s : GoString) (c : UInt8) (n : Int) : List GoString :=
  if n = 0 then []
  else
    let n1 : Nat := if n < 0 then Count s c + 1 else n.toNat
    let n2 : Nat := if n1 > s.length + 1 then s.length + 1 else n1
    splitLoop c (n2 - 1) s

/-- Go slice expression `s[:hi]`; `none` when the bound check fails. -/
def sliceTo (s : GoString) (hi : Int) : Option GoString :=
  if 0 ≤ hi ∧ hi ≤ (s.length : Int) then some (s.take hi.toNat) else none

/-- Go slice expression `s[lo:]`; `none` when the bound check fails. -/
def sliceFrom (s : GoString) (lo : Int) : Option GoString :=
  if 0 ≤ lo ∧ lo ≤ (s.length : Int) then some (s.drop lo.toNat) else none

/-! ## Data model -/

/-- Go struct `GroupKind`. -/
structure GroupKind where
  Group : GoString
  Kind : GoString
  deriving DecidableEq, Repr

/-- Go struct `GroupVersion`. -/
structure GroupVersion where
  Group : GoString
  Version : GoString
  deriving DecidableEq, Repr

/-- Go struct `GroupVersionKind`. -/
structure GroupVersionKind where
  Group : GoString
  Version : GoString
  Kind : GoString
  deriving DecidableEq, Repr

/-- Go struct `GroupResource`. -/
structure GroupResource where
  Group : GoString
  Resource : GoString
  deriving DecidableEq, Repr

/-! ## Operations -/

/-- Method `GroupKind.Empty`. -/
def GroupKind.Empty (gk : GroupKind) : Bool :=
  gk.Group.length == 0 && gk.Kind.length == 0

/-- Method `GroupKind.String`: kind, a dot, group. -/
def GroupKind.String (gk : GroupKind) : GoString :=
  gk.Kind ++ lit "." ++ gk.Group

/-- Function `ParseGroupKind`. -/
def ParseGroupKind (gk : GoString) : Option GroupKind :=
  let i := Index gk dot
  if i = -1 then
    some { Kind := gk, Group := [] }
  else do
    let kind ← sliceTo gk i
    let group ← sliceFrom gk (i + 1)
    pure { Kind := kind, Group := group }

/-- Function `ParseKindArg`.  The first component is the returned pointer,
which is the address of the local `gvk` and so never `nil`. -/
def ParseKindArg (arg : GoString) : Option (Option GroupVersionKind × GroupKind) := do
  let gvk : GroupVersionKind ←
    if Count arg dot ≥ 2 then do
      let s := SplitN arg dot 3
      let group ← s[2]?
      let version ← s[1]?
      let kind ← s[0]?
      pure { Group := group, Version := version, Kind := kind }
    else
      pure { Group := [], Version := [], Kind := [] }
  let gk ← ParseGroupKind arg
  pure (some gvk, gk)

/-- Method `GroupVersion.Empty`. -/
def GroupVersion.Empty (gv : GroupVersion) : Bool :=
  gv.Group.length == 0 && gv.Version.length == 0

/-- Method `GroupVersion.String`. -/
def GroupVersion.String (gv : GroupVersion) : GoString :=
  if gv.Group.length > 0 then gv.Group ++ lit "/" ++ gv.Version
  else gv.Version

/-- Message of `fmt.Errorf("unexpected GroupVersion string: %v", gv)`: the
verb `%v` writes a string operand unchanged. -/
def errUnexpectedGroupVersion (gv : GoString) : GoString :=
  lit "unexpected GroupVersion string: " ++ gv

/-- Function `ParseGroupVersion`; the second component is the error. -/
def ParseGroupVersion (gv : GoString) : Option (GroupVersion × Option GoString) :=
  if gv.length = 0 ∨ gv = lit "/" then
    some ({ Group := [], Version := [] }, none)
  else
    match Count gv slash with
    | 0 => some ({ Group := [], Version := gv }, none)
    | 1 => do
      let i := Index gv slash
      let group ← sliceTo gv i
      let version ← sliceFrom gv (i + 1)
      pure ({ Group := group, Version := version }, none)
    | _ => some ({ Group := [], Version := [] }, some (errUnexpectedGroupVersion gv))

/-- First loop of `KindForGroupVersionKinds`: the first candidate equal to
the preferred group and version. -/
def exactPass (gv : GroupVersion) : List GroupVersionKind → Option GroupVersionKind
  | [] => none
  | kind :: rest =>
    if kind.Group = gv.Group ∧ kind.Version = gv.Version then some kind
    else exactPass gv rest

/-- Second loop of `KindForGroupVersionKinds`: the first candidate of the
preferred group. -/
def groupPass (gv : GroupVersion) : List GroupVersionKind → Option GroupVersionKind
  | [] => none
  | kind :: rest =>
    if kind.Group = gv.Group then some kind else groupPass gv rest

/-- Method `GroupVersion.KindForGroupVersionKinds`, returning `(target, ok)`. -/
def GroupVersion.KindForGroupVersionKinds (gv : GroupVersion)
    (kinds : List GroupVersionKind) : GroupVersionKind × Bool :=
  match exactPass gv kinds with
  | some kind => (kind, true)
  | none =>
    match groupPass gv kinds with
    | some kind => (kind, true)
    | none => ({ Group := [], Version := [], Kind := [] }, false)

/-- Method `GroupVersionKind.Empty`. -/
def GroupVersionKind.Empty (gvk : GroupVersionKind) : Bool :=
  gvk.Group.length == 0 && gvk.Version.length == 0 && gvk.Kind.length == 0

/-- Method `GroupResource.Empty`. -/
def GroupResource.Empty (gr : GroupResource) : Bool :=
  gr.Group.length == 0 && gr.Resource.length == 0

/-! ## Lemmas on the primitives -/

theorem lit_dot : lit "." = [dot] := by decide

theorem lit_slash : lit "/" = [slash] := by decide

theorem indexFrom_of_not_mem (c : UInt8) :
    ∀ (s : GoString) (i : Nat), c ∉ s → indexFrom c s i = -1
  | [], _, _ => rfl
  | b :: bs, i, h => by
    have hb : b ≠ c := fun e => h (by simp [e])
    have hbs : c ∉ bs := fun e => h (List.mem_cons_of_mem _ e)
    simp [indexFrom, hb, indexFrom_of_not_mem c bs (i + 1) hbs]

theorem indexFrom_append (c : UInt8) :
    ∀ (pre post : GoString) (i : Nat), c ∉ pre →
      indexFrom c (pre ++ c :: post) i = ((i + pre.length : Nat) : Int)
  | [], post, i, _ => by simp [indexFrom]
  | b :: bs, post, i, h => by
    have hb : b ≠ c := fun e => h (by simp [e])
    have hbs : c ∉ bs := fun e => h (List.mem_cons_of_mem _ e)
    have ih := indexFrom_append c bs post (i + 1) hbs
    show indexFrom c (b :: (bs ++ c :: post)) i = _
    simp only [indexFrom, hb, if_false, ih, List.length_cons]
    push_cast
    omega

theorem Index_of_not_mem {c : UInt8} {s : GoString} (h : c ∉ s) : Index s c = -1 :=
  indexFrom_of_not_mem c s 0 h

theorem Index_append {c : UInt8} {pre : GoString} (post : GoString) (h : c ∉ pre) :
    Index (pre ++ c :: post) c = (pre.length : Int) := by
  simp [Index, indexFrom_append c pre post 0 h]

theorem Count_eq_count (c : UInt8) : ∀ s : GoString, Count s c = s.count c
  | [] => rfl
  | b :: bs => by
    by_cases hb : b = c
    · simp [Count, hb, Count_eq_count c bs]
    · simp [Count, hb, Count_eq_count c bs, List.count_cons]

/-- Cut a string at the first occurrence of a byte it contains. -/
theorem exists_first_split (c : UInt8) :
    ∀ s : GoString, c ∈ s → ∃ pre post, s = pre ++ c :: post ∧ c ∉ pre
  | [], h => by simp at h
  | b :: bs, h => by
    by_cases hb : b = c
    · exact ⟨[], bs, by simp [hb], by simp⟩
    · have hbs : c ∈ bs := by
        rcases List.mem_cons.1 h with e | e
        · exact absurd e.symm hb
        · exact e
      obtain ⟨pre, post, e, hp⟩ := exists_first_split c bs hbs
      refine ⟨b :: pre, post, by simp [e], ?_⟩
      intro hm
      rcases List.mem_cons.1 hm with e1 | e1
      · exact hb e1.symm
      · exact hp e1

theorem sliceTo_append (pre post : GoString) :
    sliceTo (pre ++ post) (pre.length : Int) = some pre := by
  simp [sliceTo]

theorem sliceFrom_append (c : UInt8) (pre post : GoString) :
    sliceFrom (pre ++ c :: post) ((pre.length : Int) + 1) = some post := by
  have h1 : (0 : Int) ≤ (pre.length : Int) + 1 := by omega
  have h2 : ((pre.length : Int) + 1).toNat = pre.length + 1 := by omega
  simp only [sliceFrom, List.length_append, List.length_cons, h2]
  rw [if_pos]
  · simp
  · constructor
    · exact h1
    · push_cast; omega

/-! ## Lemmas on the resolver passes -/

/-- Cut a list at its first element satisfying a decidable predicate. -/
theorem exists_first_sat {α : Type} (P : α → Prop) [DecidablePred P] :
    ∀ l : List α, (∃ x ∈ l, P x) →
      ∃ pre k post, l = pre ++ k :: post ∧ P k ∧ ∀ x ∈ pre, ¬ P x
  | [], h => by simp at h
  | a :: l, h => by
    by_cases ha : P a
    · exact ⟨[], a, l, rfl, ha, by simp⟩
    · have hl : ∃ x ∈ l, P x := by
        obtain ⟨x, hx, hP⟩ := h
        rcases List.mem_cons.1 hx with e | e
        · exact absurd (e ▸ hP) ha
        · exact ⟨x, e, hP⟩
      obtain ⟨pre, k, post, e, hk, hpre⟩ := exists_first_sat P l hl
      refine ⟨a :: pre, k, post, by simp [e], hk, ?_⟩
      intro x hx
      rcases List.mem_cons.1 hx with e1 | e1
      · exact e1 ▸ ha
      · exact hpre x e1

theorem exactPass_append (gv : GroupVersion) (k : GroupVersionKind)
    (post : List GroupVersionKind) (hk : k.Group = gv.Group ∧ k.Version = gv.Version) :
    ∀ pre : List GroupVersionKind,
      (∀ x ∈ pre, ¬(x.Group = gv.Group ∧ x.Version = gv.Version)) →
      exactPass gv (pre ++ k :: post) = some k
  | [], _ => by simp [exactPass, hk]
  | a :: pre, h => by
    have ha : ¬(a.Group = gv.Group ∧ a.Version = gv.Version) := h a (by simp)
    have ih := exactPass_append gv k post hk pre (fun x hx => h x (List.mem_cons_of_mem _ hx))
    show exactPass gv (a :: (pre ++ k :: post)) = some k
    simp only [exactPass, ha, if_false, ih]

theorem exactPass_eq_none (gv : GroupVersion) :
    ∀ kinds : List GroupVersionKind,
      (∀ x ∈ kinds, ¬(x.Group = gv.Group ∧ x.Version = gv.Version)) →
      exactPass gv kinds = none
  | [], _ => rfl
  | a :: l, h => by
    have ha : ¬(a.Group = gv.Group ∧ a.Version = gv.Version) := h a (by simp)
    simp only [exactPass, ha, if_false]
    exact exactPass_eq_none gv l (fun x hx => h x (List.mem_cons_of_mem _ hx))

theorem groupPass_append (gv : GroupVersion) (k : GroupVersionKind)
    (post : List GroupVersionKind) (hk : k.Group = gv.Group) :
    ∀ pre : List GroupVersionKind, (∀ x ∈ pre, x.Group ≠ gv.Group) →
      groupPass gv (pre ++ k :: post) = some k
  | [], _ => by simp [groupPass, hk]
  | a :: pre, h => by
    have ha : a.Group ≠ gv.Group := h a (by simp)
    have ih := groupPass_append gv k post hk pre (fun x hx => h x (List.mem_cons_of_mem _ hx))
    show groupPass gv (a :: (pre ++ k :: post)) = some k
    simp only [groupPass, ha, if_false, ih]

theorem groupPass_eq_none (gv : GroupVersion) :
    ∀ kinds : List GroupVersionKind, (∀ x ∈ kinds, x.Group ≠ gv.Group) →
      groupPass gv kinds = none
  | [], _ => rfl
  | a :: l, h => by
    have ha : a.Group ≠ gv.Group := h a (by simp)
    simp only [groupPass, ha, if_false]
    exact groupPass_eq_none gv l (fun x hx => h x (List.mem_cons_of_mem _ hx))

/-- The resolver answers `false` exactly when no candidate is of the preferred
group, and then the target is the zero value. -/
theorem resolver_cases (gv : GroupVersion) (kinds : List GroupVersionKind) :
    ((∀ x ∈ kinds, x.Group ≠ gv.Group) ∧
      gv.KindForGroupVersionKinds kinds = (⟨[], [], []⟩, false)) ∨
    ((∃ x ∈ kinds, x.Group = gv.Group) ∧
      (gv.KindForGroupVersionKinds kinds).2 = true) := by
  by_cases h : ∃ x ∈ kinds, x.Group = gv.Group
  · right
    refine ⟨h, ?_⟩
    obtain ⟨pre, k, post, e, hk, hpre⟩ := exists_first_sat (fun x => x.Group = gv.Group) kinds h
    have hg := groupPass_append gv k post hk pre hpre
    unfold GroupVersion.KindForGroupVersionKinds
    rw [e, hg]
    cases exactPass gv (pre ++ k :: post) <;> rfl
  · left
    have h2 : ∀ x ∈ kinds, x.Group ≠ gv.Group := fun x hx e => h ⟨x, hx, e⟩
    refine ⟨h2, ?_⟩
    have he := exactPass_eq_none gv kinds (fun x hx e => h2 x hx e.1)
    have hg := groupPass_eq_none gv kinds h2
    simp [GroupVersion.KindForGroupVersionKinds, he, hg]

/-! ## Lemmas on `ParseGroupVersion` -/

theorem count_first_split (c : UInt8) (pre post : GoString) (h : c ∉ pre) :
    (pre ++ c :: post).count c = post.count c + 1 := by
  simp [List.count_append, List.count_cons, List.count_eq_zero.2 h]

/-- No slash: the whole input is the version. -/
theorem ParseGroupVersion_no_slash (s : GoString) (h : slash ∉ s) :
    ParseGroupVersion s = some (⟨[], s⟩, none) := by
  have hc : Count s slash = 0 := by
    rw [Count_eq_count]; exact List.count_eq_zero.2 h
  by_cases hs : s = []
  · subst hs; rfl
  · have h1 : ¬(s.length = 0 ∨ s = lit "/") := by
      rintro (h1 | h1)
      · exact hs (List.length_eq_zero.1 h1)
      · rw [h1, lit_slash] at h; simp at h
    simp only [ParseGroupVersion, h1, if_false, hc]

/-- One slash: group before it, version after it. -/
theorem ParseGroupVersion_one_slash (pre post : GoString)
    (h1 : slash ∉ pre) (h2 : slash ∉ post) :
    ParseGroupVersion (pre ++ slash :: post) = some (⟨pre, post⟩, none) := by
  have hc : Count (pre ++ slash :: post) slash = 1 := by
    rw [Count_eq_count, count_first_split slash pre post h1, List.count_eq_zero.2 h2]
  by_cases hs : pre ++ slash :: post = lit "/"
  · have hl := congrArg List.length hs
    rw [lit_slash] at hl
    simp only [List.length_append, List.length_cons, List.length_nil] at hl
    have hp : pre = [] := List.length_eq_zero.1 (by omega)
    have hq : post = [] := List.length_eq_zero.1 (by omega)
    subst hp; subst hq; rfl
  · have h0 : ¬((pre ++ slash :: post).length = 0 ∨ pre ++ slash :: post = lit "/") := by
      rintro (h0 | h0)
      · simp at h0
      · exact hs h0
    have hi : Index (pre ++ slash :: post) slash = (pre.length : Int) := Index_append post h1
    have ht : sliceTo (pre ++ slash :: post) (pre.length : Int) = some pre :=
      sliceTo_append pre (slash :: post)
    have hf := sliceFrom_append slash pre post
    simp only [ParseGroupVersion, h0, if_false, hc, hi, ht, hf]
    rfl

/-- Two or more slashes: the empty value and the error naming the input. -/
theorem ParseGroupVersion_many_slashes (s : GoString) (h : 2 ≤ s.count slash) :
    ParseGroupVersion s = some (⟨[], []⟩, some (errUnexpectedGroupVersion s)) := by
  obtain ⟨n, hn⟩ : ∃ n, Count s slash = n + 2 := by
    rw [Count_eq_count]; exact ⟨s.count slash - 2, by omega⟩
  have h0 : ¬(s.length = 0 ∨ s = lit "/") := by
    rintro (h0 | h0)
    · rw [List.length_eq_zero.1 h0] at h; simp at h
    · rw [h0, lit_slash] at h; simp at h
  simp only [ParseGroupVersion, h0, if_false, hn]

/-- An input holding exactly one slash is a slash-free prefix, the slash and a
slash-free suffix. -/
theorem split_of_count_one (c : UInt8) (s : GoString) (h : s.count c = 1) :
    ∃ pre post, s = pre ++ c :: post ∧ c ∉ pre ∧ c ∉ post := by
  have hm : c ∈ s := List.count_pos_iff.1 (by omega)
  obtain ⟨pre, post, e, hp⟩ := exists_first_split c s hm
  refine ⟨pre, post, e, hp, ?_⟩
  rw [e, count_first_split c pre post hp] at h
  exact List.count_eq_zero.1 (by omega)

/-! ## Lemmas on `ParseGroupKind` and `ParseKindArg` -/

/-- No dot: the whole input is the kind. -/
theorem ParseGroupKind_no_dot (s : GoString) (h : dot ∉ s) :
    ParseGroupKind s = some { Kind := s, Group := [] } := by
  simp [ParseGroupKind, Index_of_not_mem h]

/-- A dot: kind before the first one, group after it. -/
theorem ParseGroupKind_first_dot (pre post : GoString) (h : dot ∉ pre) :
    ParseGroupKind (pre ++ dot :: post) = some { Kind := pre, Group := post } := by
  have hi : Index (pre ++ dot :: post) dot = (pre.length : Int) := Index_append post h
  have hne : ¬((pre.length : Int) = -1) := by omega
  have ht : sliceTo (pre ++ dot :: post) (pre.length : Int) = some pre :=
    sliceTo_append pre (dot :: post)
  have hf := sliceFrom_append dot pre post
  simp only [ParseGroupKind, hi, hne, if_false, ht, hf]
  rfl

theorem splitLoop_step (c : UInt8) (k : Nat) (pre post : GoString) (h : c ∉ pre) :
    splitLoop c (k + 1) (pre ++ c :: post) = pre :: splitLoop c k post := by
  have hi : Index (pre ++ c :: post) c = (pre.length : Int) := Index_append post h
  have hneg : ¬((pre.length : Int) < 0) := by omega
  simp only [splitLoop, hi, hneg, if_false, Int.toNat_ofNat, List.take_left']
  congr 2
  rw [List.drop_append_eq_append_drop]
  simp

/-- Three-way split at the first two separators. -/
theorem SplitN_three (c : UInt8) (k v g : GoString) (hk : c ∉ k) (hv : c ∉ v) :
    SplitN (k ++ c :: (v ++ c :: g)) c 3 = [k, v, g] := by
  have hlen : ¬(3 > (k ++ c :: (v ++ c :: g)).length + 1) := by
    simp only [List.length_append, List.length_cons]
    omega
  have h3 : ¬((3 : Int) = 0) := by decide
  have h3n : ¬((3 : Int) < 0) := by decide
  have h3t : (3 : Int).toNat = 3 := rfl
  simp only [SplitN, h3, h3n, if_false, h3t, hlen]
  show splitLoop c (1 + 1) (k ++ c :: (v ++ c :: g)) = [k, v, g]
  rw [splitLoop_step c 1 k _ hk]
  show k :: splitLoop c (0 + 1) (v ++ c :: g) = [k, v, g]
  rw [splitLoop_step c 0 v g hv]
  rfl

/-- An input holding at least two separators starts with two separator-free
pieces, each followed by a separator. -/
theorem split_of_count_two (c : UInt8) (s : GoString) (h : 2 ≤ s.count c) :
    ∃ k v g, s = k ++ c :: (v ++ c :: g) ∧ c ∉ k ∧ c ∉ v := by
  have hm : c ∈ s := List.count_pos_iff.1 (by omega)
  obtain ⟨k, rest, e, hk⟩ := exists_first_split c s hm
  rw [e, count_first_split c k rest hk] at h
  have hm2 : c ∈ rest := List.count_pos_iff.1 (by omega)
  obtain ⟨v, g, e2, hv⟩ := exists_first_split c rest hm2
  exact ⟨k, v, g, by rw [e, e2], hk, hv⟩

/-- Two dots or more: the triple is cut at the first two dots and the pair at
the first dot. -/
theorem ParseKindArg_two_dots (k v g : GoString) (hk : dot ∉ k) (hv : dot ∉ v) :
    ParseKindArg (k ++ dot :: (v ++ dot :: g)) =
      some (some { Group := g, Version := v, Kind := k },
        { Kind := k, Group := v ++ dot :: g }) := by
  have hc : Count (k ++ dot :: (v ++ dot :: g)) dot ≥ 2 := by
    rw [Count_eq_count, count_first_split dot k _ hk, count_first_split dot v g hv]
    omega
  simp only [ParseKindArg, hc, if_true, SplitN_three dot k v g hk hv,
    ParseGroupKind_first_dot k (v ++ dot :: g) hk]
  rfl

/-- Fewer than two dots: the triple is the zero value. -/
theorem ParseKindArg_few_dots (arg : GoString) (h : arg.count dot < 2) :
    ParseKindArg arg =
      (ParseGroupKind arg).map (fun gk => (some ⟨[], [], []⟩, gk)) := by
  have hc : ¬(Count arg dot ≥ 2) := by
    rw [Count_eq_count]; omega
  simp only [ParseKindArg, hc, if_false]
  cases ParseGroupKind arg <;> rfl

/-- `ParseGroupKind` never panics. -/
theorem ParseGroupKind_isSome (s : GoString) : ∃ gk, ParseGroupKind s = some gk := by
  by_cases h : dot ∈ s
  · obtain ⟨pre, post, e, hp⟩ := exists_first_split dot s h
    exact ⟨_, e ▸ ParseGroupKind_first_dot pre post hp⟩
  · exact ⟨_, ParseGroupKind_no_dot s h⟩

/-! ## Resolver -/

/-- C1. Exact pass of the resolver: when some candidate has both the
preferred group and the preferred version, the resolver returns `(k, true)`
where `k` is the first such candidate in list order (every candidate before it
fails the exact test, even one that shares the group). -/
theorem resolver_exact_pass (gv : GroupVersion) (kinds : List GroupVersionKind)
    (h : ∃ k ∈ kinds, k.Group = gv.Group ∧ k.Version = gv.Version) :
    ∃ pre k post, kinds = pre ++ k :: post ∧
      (∀ x ∈ pre, ¬(x.Group = gv.Group ∧ x.Version = gv.Version)) ∧
      (k.Group = gv.Group ∧ k.Version = gv.Version) ∧
      gv.KindForGroupVersionKinds kinds = (k, true) := by
  obtain ⟨pre, k, post, e, hk, hpre⟩ :=
    exists_first_sat (fun x => x.Group = gv.Group ∧ x.Version = gv.Version) kinds h
  refine ⟨pre, k, post, e, hpre, hk, ?_⟩
  have he := exactPass_append gv k post hk pre hpre
  simp [GroupVersion.KindForGroupVersionKinds, e, he]

/-- Witness of C1: preferred apps/v1 against the candidates apps/v2 Deployment,
apps/v1 Deployment yields the second candidate. -/
theorem resolver_exact_pass_witness :
    (∃ pre k post,
      [GroupVersionKind.mk (lit "apps") (lit "v2") (lit "Deployment"),
        GroupVersionKind.mk (lit "apps") (lit "v1") (lit "Deployment")] = pre ++ k :: post ∧
      (∀ x ∈ pre, ¬(x.Group = lit "apps" ∧ x.Version = lit "v1")) ∧
      (k.Group = lit "apps" ∧ k.Version = lit "v1") ∧
      (GroupVersion.mk (lit "apps") (lit "v1")).KindForGroupVersionKinds
        [GroupVersionKind.mk (lit "apps") (lit "v2") (lit "Deployment"),
          GroupVersionKind.mk (lit "apps") (lit "v1") (lit "Deployment")] = (k, true)) ∧
    (GroupVersion.mk (lit "apps") (lit "v1")).KindForGroupVersionKinds
        [GroupVersionKind.mk (lit "apps") (lit "v2") (lit "Deployment"),
          GroupVersionKind.mk (lit "apps") (lit "v1") (lit "Deployment")]
      = (GroupVersionKind.mk (lit "apps") (lit "v1") (lit "Deployment"), true) :=
  ⟨resolver_exact_pass (GroupVersion.mk (lit "apps") (lit "v1")) _
      ⟨GroupVersionKind.mk (lit "apps") (lit "v1") (lit "Deployment"), by decide, by decide⟩,
    by decide⟩

/-- C2. Group-only fallback of the resolver: when no candidate matches both
group and version but some candidate has the preferred group, the resolver
returns `(k, true)` where `k` is the first candidate in list order of the
preferred group, whatever its version. -/
theorem resolver_group_fallback (gv : GroupVersion) (kinds : List GroupVersionKind)
    (hno : ∀ x ∈ kinds, ¬(x.Group = gv.Group ∧ x.Version = gv.Version))
    (h : ∃ k ∈ kinds, k.Group = gv.Group) :
    ∃ pre k post, kinds = pre ++ k :: post ∧
      (∀ x ∈ pre, x.Group ≠ gv.Group) ∧ k.Group = gv.Group ∧
      gv.KindForGroupVersionKinds kinds = (k, true) := by
  obtain ⟨pre, k, post, e, hk, hpre⟩ :=
    exists_first_sat (fun x => x.Group = gv.Group) kinds h
  refine ⟨pre, k, post, e, hpre, hk, ?_⟩
  have he := exactPass_eq_none gv kinds hno
  have hg := groupPass_append gv k post hk pre hpre
  unfold GroupVersion.KindForGroupVersionKinds
  rw [he]
  rw [e, hg]

/-- Witness of C2: preferred apps/v3 against the candidates apps/v1 Deployment,
apps/v2 Deployment yields the first candidate. -/
theorem resolver_group_fallback_witness :
    (∃ pre k post,
      [GroupVersionKind.mk (lit "apps") (lit "v1") (lit "Deployment"),
        GroupVersionKind.mk (lit "apps") (lit "v2") (lit "Deployment")] = pre ++ k :: post ∧
      (∀ x ∈ pre, x.Group ≠ lit "apps") ∧ k.Group = lit "apps" ∧
      (GroupVersion.mk (lit "apps") (lit "v3")).KindForGroupVersionKinds
        [GroupVersionKind.mk (lit "apps") (lit "v1") (lit "Deployment"),
          GroupVersionKind.mk (lit "apps") (lit "v2") (lit "Deployment")] = (k, true)) ∧
    (GroupVersion.mk (lit "apps") (lit "v3")).KindForGroupVersionKinds
        [GroupVersionKind.mk (lit "apps") (lit "v1") (lit "Deployment"),
          GroupVersionKind.mk (lit "apps") (lit "v2") (lit "Deployment")]
      = (GroupVersionKind.mk (lit "apps") (lit "v1") (lit "Deployment"), true) :=
  ⟨resolver_group_fallback (GroupVersion.mk (lit "apps") (lit "v3")) _
      (by decide) ⟨GroupVersionKind.mk (lit "apps") (lit "v1") (lit "Deployment"),
        by decide, by decide⟩,
    by decide⟩

/-- C3. Not-found result of the resolver: for every preferred group/version
and every candidate list (the empty one included) `ok` is `false` exactly when
no candidate has the preferred group, and exactly then the whole result is the
zero-value `GroupVersionKind` paired with `false`; the result is always a
plain pair, there being no other failure signal.  Preferred networking/v1
against apps/v1 Deployment, apps/v2 Deployment yields the zero value and
`false`. -/
theorem resolver_not_found (gv : GroupVersion) (kinds : List GroupVersionKind) :
    ((gv.KindForGroupVersionKinds kinds).2 = false ↔ ∀ k ∈ kinds, k.Group ≠ gv.Group) ∧
    (gv.KindForGroupVersionKinds kinds = (⟨[], [], []⟩, false) ↔
      ∀ k ∈ kinds, k.Group ≠ gv.Group) ∧
    gv.KindForGroupVersionKinds [] = (⟨[], [], []⟩, false) ∧
    (GroupVersion.mk (lit "networking") (lit "v1")).KindForGroupVersionKinds
        [GroupVersionKind.mk (lit "apps") (lit "v1") (lit "Deployment"),
          GroupVersionKind.mk (lit "apps") (lit "v2") (lit "Deployment")]
      = (⟨[], [], []⟩, false) := by
  refine ⟨?_, ?_, rfl, by decide⟩
  · rcases resolver_cases gv kinds with ⟨h1, h2⟩ | ⟨⟨x, hx, hg⟩, h2⟩
    · simp only [h2, true_iff]
      exact h1
    · simp only [h2]
      constructor
      · intro h; cases h
      · intro h; exact absurd hg (h x hx)
  · rcases resolver_cases gv kinds with ⟨h1, h2⟩ | ⟨⟨x, hx, hg⟩, h2⟩
    · simp only [h2, true_iff]
      exact h1
    · constructor
      · intro h; rw [h] at h2; cases h2
      · intro h; exact absurd hg (h x hx)

/-! ## `ParseGroupVersion` and `GroupVersion.String` -/

/-- C4. `ParseGroupVersion` fails exactly on inputs with two or more slashes:
it returns a non-nil error if and only if the input holds at least two slash
bytes, and it does so by returning the empty `GroupVersion` together with the
message "unexpected GroupVersion string: " followed by the input itself. -/
theorem ParseGroupVersion_error_iff (s : GoString) :
    ((∃ g msg, ParseGroupVersion s = some (g, some msg)) ↔ 2 ≤ s.count slash) ∧
    (2 ≤ s.count slash ↔
      ParseGroupVersion s =
        some (⟨[], []⟩, some (lit "unexpected GroupVersion string: " ++ s))) := by
  have hok : s.count slash < 2 → ∃ g, ParseGroupVersion s = some (g, none) := by
    intro h
    by_cases h0 : s.count slash = 0
    · exact ⟨_, ParseGroupVersion_no_slash s (List.count_eq_zero.1 h0)⟩
    · obtain ⟨pre, post, e, h1, h2⟩ := split_of_count_one slash s (by omega)
      exact ⟨_, e ▸ ParseGroupVersion_one_slash pre post h1 h2⟩
  constructor
  · constructor
    · rintro ⟨g, msg, h⟩
      by_contra hlt
      obtain ⟨g2, h2⟩ := hok (by omega)
      rw [h2] at h
      cases h
    · intro h
      exact ⟨_, _, ParseGroupVersion_many_slashes s h⟩
  · constructor
    · intro h
      exact ParseGroupVersion_many_slashes s h
    · intro h
      by_contra hlt
      obtain ⟨g2, h2⟩ := hok (by omega)
      rw [h2] at h
      cases h

/-- C5. Success path of `ParseGroupVersion`: on an input with at most one
slash it returns no error and a `GroupVersion` such that (a) without a slash
the group is empty and the version is the input, (b) with exactly one slash
group, "/" and version concatenate to the input and neither field holds a
slash; the inputs "" and "/" both give the empty `GroupVersion`. -/
theorem ParseGroupVersion_success (s : GoString) (h : s.count slash ≤ 1) :
    ∃ g, ParseGroupVersion s = some (g, none) ∧
      (s.count slash = 0 → g.Group = [] ∧ g.Version = s) ∧
      (s.count slash = 1 →
        g.Group ++ lit "/" ++ g.Version = s ∧ slash ∉ g.Group ∧ slash ∉ g.Version) ∧
      (s = lit "" ∨ s = lit "/" → g = ⟨[], []⟩) := by
  by_cases h0 : s.count slash = 0
  · have hn := List.count_eq_zero.1 h0
    refine ⟨_, ParseGroupVersion_no_slash s hn, fun _ => ⟨rfl, rfl⟩, fun h1 => by omega, ?_⟩
    rintro (e | e)
    · rw [e]; rfl
    · rw [e, lit_slash] at hn; simp at hn
  · obtain ⟨pre, post, e, h1, h2⟩ := split_of_count_one slash s (by omega)
    subst e
    refine ⟨_, ParseGroupVersion_one_slash pre post h1 h2, fun h3 => absurd h3 h0,
      fun _ => ⟨by simp [lit_slash], h1, h2⟩, ?_⟩
    rintro (e | e)
    · have hl := congrArg List.length e
      simp [lit] at hl
    · have hl := congrArg List.length e
      rw [lit_slash] at hl
      simp only [List.length_append, List.length_cons, List.length_nil] at hl
      have hp : pre = [] := List.length_eq_zero.1 (by omega)
      have hq : post = [] := List.length_eq_zero.1 (by omega)
      subst hp; subst hq; rfl

/-- Witness of C5: "apps/v1" parses into group "apps" and version "v1". -/
theorem ParseGroupVersion_success_witness :
    (lit "apps/v1").count slash ≤ 1 ∧
    (∃ g, ParseGroupVersion (lit "apps/v1") = some (g, none) ∧
      ((lit "apps/v1").count slash = 0 → g.Group = [] ∧ g.Version = lit "apps/v1") ∧
      ((lit "apps/v1").count slash = 1 →
        g.Group ++ lit "/" ++ g.Version = lit "apps/v1" ∧
          slash ∉ g.Group ∧ slash ∉ g.Version) ∧
      (lit "apps/v1" = lit "" ∨ lit "apps/v1" = lit "/" → g = ⟨[], []⟩)) ∧
    ParseGroupVersion (lit "apps/v1") = some (⟨lit "apps", lit "v1"⟩, none) :=
  ⟨by decide, ParseGroupVersion_success (lit "apps/v1") (by decide), by decide⟩

/-- C6. Parse-then-render round trip: on an input with exactly one slash
`ParseGroupVersion` succeeds and the `String()` of its result is the input,
except when the input starts with the slash (empty group), where it is the
input without that leading slash. -/
theorem ParseGroupVersion_then_String (s : GoString) (h : s.count slash = 1) :
    ∃ g, ParseGroupVersion s = some (g, none) ∧
      (s.head? ≠ some slash → g.String = s) ∧
      (s.head? = some slash → g.String = s.tail) := by
  obtain ⟨pre, post, e, h1, h2⟩ := split_of_count_one slash s h
  subst e
  refine ⟨_, ParseGroupVersion_one_slash pre post h1 h2, ?_, ?_⟩
  · intro hh
    cases pre with
    | nil => simp at hh
    | cons b bs => simp [GroupVersion.String, lit_slash]
  · intro hh
    cases pre with
    | nil => simp [GroupVersion.String]
    | cons b bs =>
      simp only [List.cons_append, List.head?_cons, Option.some.injEq] at hh
      exact absurd (by simp [hh]) h1

/-- Witness of C6: "apps/v1" renders back to itself after parsing. -/
theorem ParseGroupVersion_then_String_witness :
    (lit "apps/v1").count slash = 1 ∧
    ∃ g, ParseGroupVersion (lit "apps/v1") = some (g, none) ∧
      ((lit "apps/v1").head? ≠ some slash → g.String = lit "apps/v1") ∧
      ((lit "apps/v1").head? = some slash → g.String = (lit "apps/v1").tail) :=
  ⟨by decide, ParseGroupVersion_then_String (lit "apps/v1") (by decide)⟩

/-- Counterexample to C7 as stated: the group "a/b" is non-empty, yet parsing
the rendering "a/b/v1" of group "a/b", version "v1" returns the empty value
and the error, not the original tuple. -/
theorem GroupVersion_render_parse_counterexample :
    (GroupVersion.mk (lit "a/b") (lit "v1")).Group ≠ [] ∧
    ParseGroupVersion (GroupVersion.mk (lit "a/b") (lit "v1")).String =
      some (⟨[], []⟩, some (lit "unexpected GroupVersion string: a/b/v1")) ∧
    ParseGroupVersion (GroupVersion.mk (lit "a/b") (lit "v1")).String ≠
      some (GroupVersion.mk (lit "a/b") (lit "v1"), none) := by
  decide

/-- C7 (amended). Render-then-parse: for a `GroupVersion` with a non-empty
group the rendering is group, "/" and version; parsing it returns no error
and the original tuple if and only if neither the group nor the version holds
a slash; and when either holds a slash the rendering holds two or more
slashes, the parse returns the empty value with the error naming the
rendering, and so returns neither the original tuple nor a nil error. -/
theorem String_then_ParseGroupVersion (gv : GroupVersion) (hg : gv.Group ≠ []) :
    gv.String = gv.Group ++ lit "/" ++ gv.Version ∧
    (ParseGroupVersion gv.String = some (gv, none) ↔
      slash ∉ gv.Group ∧ slash ∉ gv.Version) ∧
    (slash ∈ gv.Group ∨ slash ∈ gv.Version →
      2 ≤ gv.String.count slash ∧
      ParseGroupVersion gv.String =
        some (⟨[], []⟩, some (lit "unexpected GroupVersion string: " ++ gv.String)) ∧
      ∀ r e, ParseGroupVersion gv.String = some (r, e) → r ≠ gv ∧ e ≠ none) := by
  obtain ⟨g, v⟩ := gv
  have hg2 : g ≠ [] := hg
  have hpos : g.length > 0 := List.length_pos.2 hg2
  have hs : (GroupVersion.mk g v).String = g ++ slash :: v := by
    simp [GroupVersion.String, hpos, lit_slash]
  have hcount : (slash ∈ g ∨ slash ∈ v) → 2 ≤ (g ++ slash :: v).count slash := by
    intro hm
    have hgv : 0 < g.count slash ∨ 0 < v.count slash := by
      rcases hm with hm | hm
      · exact Or.inl (List.count_pos_iff.2 hm)
      · exact Or.inr (List.count_pos_iff.2 hm)
    simp only [List.count_append, List.count_cons_self]
    omega
  refine ⟨by simp [GroupVersion.String, hpos], ?_, ?_⟩
  · rw [hs]
    show ParseGroupVersion (g ++ slash :: v) = some (⟨g, v⟩, none) ↔ slash ∉ g ∧ slash ∉ v
    constructor
    · intro h
      by_contra hc
      have hm : slash ∈ g ∨ slash ∈ v := by
        by_contra hn
        exact hc ⟨fun h1 => hn (Or.inl h1), fun h2 => hn (Or.inr h2)⟩
      rw [ParseGroupVersion_many_slashes _ (hcount hm)] at h
      cases h
    · rintro ⟨h1, h2⟩
      exact ParseGroupVersion_one_slash g v h1 h2
  · intro hm
    have hm2 : slash ∈ g ∨ slash ∈ v := hm
    rw [hs]
    have hp := ParseGroupVersion_many_slashes _ (hcount hm2)
    refine ⟨hcount hm2, hp, ?_⟩
    intro r e hre
    rw [hp] at hre
    cases hre
    refine ⟨?_, by simp⟩
    intro hrg
    exact hg2 (congrArg GroupVersion.Group hrg).symm

/-- Witness of C7 (amended): group "apps", version "v1". -/
theorem String_then_ParseGroupVersion_witness :
    (GroupVersion.mk (lit "apps") (lit "v1")).Group ≠ [] ∧
    (GroupVersion.mk (lit "apps") (lit "v1")).String = lit "apps/v1" ∧
    ParseGroupVersion (GroupVersion.mk (lit "apps") (lit "v1")).String =
      some (GroupVersion.mk (lit "apps") (lit "v1"), none) :=
  ⟨by decide, by decide,
    (String_then_ParseGroupVersion (GroupVersion.mk (lit "apps") (lit "v1"))
      (by decide)).2.1.2 ⟨by decide, by decide⟩⟩

/-! ## `ParseGroupKind` and `ParseKindArg` -/

/-- C8. `ParseGroupKind` is total and splits at the first dot: on every input
it returns a `GroupKind` (no panic) such that (a) without a dot the kind is the
input and the group is empty, (b) otherwise the kind holds no dot and kind,
"." and group concatenate to the input, the group keeping any further dots.
"Pod.apps" gives kind "Pod", group "apps"; "Pod" gives kind "Pod" and the
empty group; "Pod.v1.apps" gives group "v1.apps". -/
theorem ParseGroupKind_total_split (s : GoString) :
    (∃ gk, ParseGroupKind s = some gk ∧
      (dot ∉ s → gk.Kind = s ∧ gk.Group = []) ∧
      (dot ∈ s → dot ∉ gk.Kind ∧ gk.Kind ++ lit "." ++ gk.Group = s)) ∧
    ParseGroupKind (lit "Pod.apps") = some { Kind := lit "Pod", Group := lit "apps" } ∧
    ParseGroupKind (lit "Pod") = some { Kind := lit "Pod", Group := lit "" } ∧
    ParseGroupKind (lit "Pod.v1.apps") =
      some { Kind := lit "Pod", Group := lit "v1.apps" } := by
  refine ⟨?_, by decide, by decide, by decide⟩
  by_cases h : dot ∈ s
  · obtain ⟨pre, post, e, hp⟩ := exists_first_split dot s h
    subst e
    exact ⟨_, ParseGroupKind_first_dot pre post hp, fun hn => absurd h hn,
      fun _ => ⟨hp, by simp [lit_dot]⟩⟩
  · exact ⟨_, ParseGroupKind_no_dot s h, fun _ => ⟨rfl, rfl⟩, fun hm => absurd hm h⟩

/-- C9. `ParseKindArg` on an input with two or more dots: the first result is
a non-nil `GroupVersionKind` whose kind and version hold no dot and for which
kind, ".", version, "." and group concatenate to the input, so the kind is the
text before the first dot, the version the text between the first two dots
and the group everything after the second dot. -/
theorem ParseKindArg_triple (arg : GoString) (h : 2 ≤ arg.count dot) :
    ∃ gvk gk, ParseKindArg arg = some (some gvk, gk) ∧
      dot ∉ gvk.Kind ∧ dot ∉ gvk.Version ∧
      gvk.Kind ++ lit "." ++ gvk.Version ++ lit "." ++ gvk.Group = arg := by
  obtain ⟨k, v, g, e, hk, hv⟩ := split_of_count_two dot arg h
  subst e
  exact ⟨_, _, ParseKindArg_two_dots k v g hk hv, hk, hv, by simp [lit_dot]⟩

/-- Witness of C9: "Pod.v1.apps" gives kind "Pod", version "v1", group
"apps". -/
theorem ParseKindArg_triple_witness :
    2 ≤ (lit "Pod.v1.apps").count dot ∧
    (∃ gvk gk, ParseKindArg (lit "Pod.v1.apps") = some (some gvk, gk) ∧
      dot ∉ gvk.Kind ∧ dot ∉ gvk.Version ∧
      gvk.Kind ++ lit "." ++ gvk.Version ++ lit "." ++ gvk.Group = lit "Pod.v1.apps") ∧
    (ParseKindArg (lit "Pod.v1.apps")).map Prod.fst =
      some (some { Kind := lit "Pod", Version := lit "v1", Group := lit "apps" }) :=
  ⟨by decide, ParseKindArg_triple (lit "Pod.v1.apps") (by decide), by decide⟩

/-- C10. Dual return of `ParseKindArg`: on every input, whatever its number
of dots, the call returns and its second result is `ParseGroupKind` of the
input; with two or more dots the pair has the kind of the triple and as group
the version of the triple, "." and the group of the triple.  "Pod.v1.apps"
gives the pair kind "Pod", group "v1.apps". -/
theorem ParseKindArg_dual (arg : GoString) :
    (∃ gvk gk, ParseKindArg arg = some (some gvk, gk) ∧ ParseGroupKind arg = some gk ∧
      (2 ≤ arg.count dot →
        gk.Kind = gvk.Kind ∧ gk.Group = gvk.Version ++ lit "." ++ gvk.Group)) ∧
    (ParseKindArg (lit "Pod.v1.apps")).map Prod.snd =
      some { Kind := lit "Pod", Group := lit "v1.apps" } := by
  refine ⟨?_, by decide⟩
  by_cases h : 2 ≤ arg.count dot
  · obtain ⟨k, v, g, e, hk, hv⟩ := split_of_count_two dot arg h
    subst e
    exact ⟨_, _, ParseKindArg_two_dots k v g hk hv,
      ParseGroupKind_first_dot k (v ++ dot :: g) hk, fun _ => ⟨rfl, by simp [lit_dot]⟩⟩
  · obtain ⟨gk, hgk⟩ := ParseGroupKind_isSome arg
    refine ⟨⟨[], [], []⟩, gk, ?_, hgk, fun h2 => absurd h2 h⟩
    rw [ParseKindArg_few_dots arg (by omega), hgk]
    rfl

/-! ## Emptiness, the pointer result and the `GroupKind` round trip -/

/-- C11. `Empty()` is true exactly when every field has length zero, for each
of `GroupKind`, `GroupVersion`, `GroupVersionKind` and `GroupResource`; so
the zero `GroupKind` is empty, the `GroupKind` of kind "x" is not, and a value
with a single non-empty field is not empty. -/
theorem Empty_iff_all_fields_empty (gk : GroupKind) (gv : GroupVersion)
    (gvk : GroupVersionKind) (gr : GroupResource) :
    (gk.Empty = true ↔ gk.Group.length = 0 ∧ gk.Kind.length = 0) ∧
    (gv.Empty = true ↔ gv.Group.length = 0 ∧ gv.Version.length = 0) ∧
    (gvk.Empty = true ↔
      gvk.Group.length = 0 ∧ gvk.Version.length = 0 ∧ gvk.Kind.length = 0) ∧
    (gr.Empty = true ↔ gr.Group.length = 0 ∧ gr.Resource.length = 0) ∧
    (GroupKind.mk (lit "") (lit "")).Empty = true ∧
    (GroupKind.mk (lit "") (lit "x")).Empty = false ∧
    (GroupKind.mk (lit "x") (lit "")).Empty = false ∧
    (GroupVersion.mk (lit "x") (lit "")).Empty = false ∧
    (GroupVersion.mk (lit "") (lit "x")).Empty = false ∧
    (GroupVersionKind.mk (lit "x") (lit "") (lit "")).Empty = false ∧
    (GroupVersionKind.mk (lit "") (lit "x") (lit "")).Empty = false ∧
    (GroupVersionKind.mk (lit "") (lit "") (lit "x")).Empty = false ∧
    (GroupResource.mk (lit "x") (lit "")).Empty = false ∧
    (GroupResource.mk (lit "") (lit "x")).Empty = false := by
  refine ⟨?_, ?_, ?_, ?_, by decide, by decide, by decide, by decide, by decide,
    by decide, by decide, by decide, by decide, by decide⟩
  · simp [GroupKind.Empty]
  · simp [GroupVersion.Empty]
  · simp [GroupVersionKind.Empty, and_assoc]
  · simp [GroupResource.Empty]

/-- C12. `ParseKindArg` never returns a nil first result: on every input the
call returns a non-nil pointer, which for an input with fewer than two dots
points to the zero-value `GroupVersionKind`; the converse fails, the input
".." holding two dots and yielding the zero value as well. -/
theorem ParseKindArg_pointer_non_nil (arg : GoString) :
    (∃ gvk gk, ParseKindArg arg = some (some gvk, gk) ∧
      (arg.count dot < 2 → gvk = ⟨[], [], []⟩)) ∧
    (2 ≤ (lit "..").count dot ∧
      (ParseKindArg (lit "..")).map Prod.fst = some (some ⟨[], [], []⟩)) := by
  refine ⟨?_, by decide, by decide⟩
  by_cases h : 2 ≤ arg.count dot
  · obtain ⟨k, v, g, e, hk, hv⟩ := split_of_count_two dot arg h
    subst e
    exact ⟨_, _, ParseKindArg_two_dots k v g hk hv, fun h2 => absurd h (by omega)⟩
  · obtain ⟨gk, hgk⟩ := ParseGroupKind_isSome arg
    refine ⟨⟨[], [], []⟩, gk, ?_, fun _ => rfl⟩
    rw [ParseKindArg_few_dots arg (by omega), hgk]
    rfl

/-- C13. Round trip for `GroupKind`: when the kind of `gk` holds no dot,
parsing `gk.String()` gives back `gk` (also with an empty group, where the
rendering is the kind followed by "."); and for every input `s` the rendering
of `ParseGroupKind(s)` is `s` when `s` holds a dot and `s` followed by "."
when it holds none. -/
theorem GroupKind_round_trip (gk : GroupKind) (s : GoString) :
    (dot ∉ gk.Kind → ParseGroupKind gk.String = some gk) ∧
    (gk.Group = [] → gk.String = gk.Kind ++ lit ".") ∧
    (∃ r, ParseGroupKind s = some r ∧
      (dot ∈ s → r.String = s) ∧ (dot ∉ s → r.String = s ++ lit ".")) := by
  refine ⟨?_, ?_, ?_⟩
  · intro h
    obtain ⟨g, k⟩ := gk
    have hs : (GroupKind.mk g k).String = k ++ dot :: g := by
      simp [GroupKind.String, lit_dot]
    rw [hs]
    exact ParseGroupKind_first_dot k g h
  · intro h
    simp [GroupKind.String, h]
  · by_cases h : dot ∈ s
    · obtain ⟨pre, post, e, hp⟩ := exists_first_split dot s h
      subst e
      exact ⟨_, ParseGroupKind_first_dot pre post hp,
        fun _ => by simp [GroupKind.String, lit_dot], fun hn => absurd h hn⟩
    · exact ⟨_, ParseGroupKind_no_dot s h, fun hm => absurd hm h,
        fun _ => by simp [GroupKind.String]⟩

/-- Witness of C13: kind "Pod" with the empty group renders to "Pod." and
parses back; the input "Pod" parses and renders to "Pod.". -/
theorem GroupKind_round_trip_witness :
    dot ∉ (GroupKind.mk (lit "") (lit "Pod")).Kind ∧
    (GroupKind.mk (lit "") (lit "Pod")).String = lit "Pod." ∧
    ParseGroupKind (GroupKind.mk (lit "") (lit "Pod")).String =
      some (GroupKind.mk (lit "") (lit "Pod")) ∧
    (∃ r, ParseGroupKind (lit "Pod") = some r ∧ r.String = lit "Pod.") :=
  ⟨by decide, by decide,
    (GroupKind_round_trip (GroupKind.mk (lit "") (lit "Pod")) (lit "Pod")).1 (by decide),
    by
      obtain ⟨r, hr, _, h2⟩ :=
        (GroupKind_round_trip (GroupKind.mk (lit "") (lit "Pod")) (lit "Pod")).2.2
      exact ⟨r, hr, h2 (by decide)⟩⟩

end scheme
